import Mathlib

/-!
Shallow embedding of `src/trie.py` (class `Trie`).

The Python code represents each trie node as a `dict` mapping single
characters to child nodes, with the sentinel key `'_end'` (a 4-character
string, hence never colliding with a single-character edge key) marking a
terminal node.  We model a node as an inductive `Node` carrying the
terminal flag and the association list of children.  The association list
keeps the dict's *insertion order*, because Python dicts iterate in
insertion order and `_iterate_words` relies on that order; the `'_end'`
sentinel is modelled by the separate flag (in `_iterate_words` and
`_count_words` the sentinel key is explicitly skipped when iterating
children, and the terminal check is done first, so separating the flag
from the child list is faithful, including for iteration order).

Words are `List Char`, matching iteration over a Python `str`.
-/

namespace TrieSpec

/-- A trie node: terminal flag (`'_end' in node`) plus the children
association list in dict insertion order (`src/trie.py`, nested dicts). -/
inductive Node : Type where
  | mk (isEnd : Bool) (children : List (Char × Node)) : Node

/-- The terminal flag of a node (`'_end' in node`). -/
def Node.isEnd : Node → Bool
  | .mk e _ => e

/-- The children association list of a node (the non-sentinel dict items). -/
def Node.children : Node → List (Char × Node)
  | .mk _ cs => cs

/-- A fresh empty node: `{}` (`Trie.__init__` sets `self.root = {}`). -/
def emptyNode : Node := .mk false []

/-- Dict lookup `current_node[char]` / membership `char in current_node`:
first (= only, keys being unique) binding of `c` in the association list. -/
def getChild : List (Char × Node) → Char → Option Node
  | [], _ => none
  | (d, n) :: rest, c => if c = d then some n else getChild rest c

/-- Dict assignment `current_node[char] = value`: replace in place if the
key is present, else append at the end (Python dicts keep insertion
order, and overwriting a key keeps its position). -/
def setChild : List (Char × Node) → Char → Node → List (Char × Node)
  | [], c, n => [(c, n)]
  | (d, m) :: rest, c, n =>
    if c = d then (c, n) :: rest else (d, m) :: setChild rest c n

/-- `Trie.insert` (src/trie.py lines 19-34): walk the word, creating an
empty node for each missing edge, and mark the final node terminal. -/
def insert : List Char → Node → Node
  | [], .mk _ cs => .mk true cs
  | c :: w, .mk e cs =>
    .mk e (setChild cs c (insert w ((getChild cs c).getD emptyNode)))

/-- The node reached by following `w` from `t`, if every edge exists
(the common walking loop of `search`, `starts_with` and `prefix_iter`). -/
def findNode : List Char → Node → Option Node
  | [], t => some t
  | c :: w, .mk _ cs =>
    match getChild cs c with
    | none => none
    | some child => findNode w child

/-- `Trie.search` (src/trie.py lines 36-51): follow the word's path;
false if an edge is missing, else the final node's terminal flag. -/
def search (w : List Char) (t : Node) : Bool :=
  match findNode w t with
  | none => false
  | some n => n.isEnd

/-- `Trie.starts_with` (src/trie.py lines 53-68): follow the prefix's
path; true iff every edge exists (terminal flag ignored). -/
def startsWith (w : List Char) (t : Node) : Bool :=
  (findNode w t).isSome

/-- `Trie.contains_prefix` (src/trie.py lines 116-126): alias of
`starts_with`. -/
def containsPrefix (w : List Char) (t : Node) : Bool :=
  startsWith w t

mutual

/-- `Trie._count_words` (src/trie.py lines 79-86): 1 for a terminal node
plus the counts of all children (the `'_end'` key being skipped). -/
def countWords : Node → Nat
  | .mk e cs => (if e then 1 else 0) + countList cs

/-- Summing `_count_words` over the dict items other than `'_end'`. -/
def countList : List (Char × Node) → Nat
  | [] => 0
  | (_, n) :: rest => countWords n + countList rest

end

/-- `Trie.__len__` (src/trie.py lines 70-77): `_count_words(self.root)`. -/
def lenTrie (t : Node) : Nat := countWords t

mutual

/-- `Trie._iterate_words` (src/trie.py lines 109-114): yield the current
word if the node is terminal, then recurse into the children in dict
order (`current_word + char`).  Returns the full yielded sequence. -/
def iterateWords : Node → List Char → List (List Char)
  | .mk e cs, cur => (if e then [cur] else []) ++ iterList cs cur

/-- The `for char, child_node in node.items()` loop of `_iterate_words`,
skipping the `'_end'` sentinel. -/
def iterList : List (Char × Node) → List Char → List (List Char)
  | [], _ => []
  | (c, n) :: rest, cur => iterateWords n (cur ++ [c]) ++ iterList rest cur

end

/-- `Trie.__iter__` (src/trie.py lines 100-107):
`_iterate_words(self.root, "")`. -/
def iterateAll (t : Node) : List (List Char) := iterateWords t []

/-- `Trie.prefix_iter` (src/trie.py lines 128-144): walk the tree along
the prefix; if an edge is missing produce nothing, else
`yield from _iterate_words(current_node, prefix)`. -/
def prefixIter (pfx : List Char) (t : Node) : List (List Char) :=
  match findNode pfx t with
  | none => []
  | some n => iterateWords n pfx

/-- The trie obtained from a fresh `Trie()` by calling `insert` on each
word of `ws` in order. -/
def buildTrie (ws : List (List Char)) : Node :=
  ws.foldl (fun t w => insert w t) emptyNode

/-- Boolean prefix test on words (spec-side notion "starts with"). -/
def hasPfx : List Char → List Char → Bool
  | [], _ => true
  | _ :: _, [] => false
  | c :: p, d :: w => decide (c = d) && hasPfx p w

/-! ### Basic lemmas about the embedded operations -/

theorem hasPfx_iff : ∀ (p w : List Char), hasPfx p w = true ↔ p <+: w
  | [], w => by simp [hasPfx]
  | c :: p, [] => by simp [hasPfx]
  | c :: p, d :: w => by
    simp [hasPfx, List.cons_prefix_cons, hasPfx_iff p w]

instance decPrefixWord (p w : List Char) : Decidable (p <+: w) :=
  decidable_of_iff (hasPfx p w = true) (hasPfx_iff p w)

theorem getChild_setChild_self :
    ∀ (cs : List (Char × Node)) (c : Char) (n : Node),
      getChild (setChild cs c n) c = some n := by
  intro cs c n
  induction cs with
  | nil => simp [setChild, getChild]
  | cons hd rest ih =>
    obtain ⟨d, m⟩ := hd
    by_cases hc : c = d
    · simp [setChild, hc, getChild]
    · simp [setChild, hc, getChild, ih]

theorem getChild_setChild_ne {c d : Char} (h : c ≠ d) :
    ∀ (cs : List (Char × Node)) (n : Node),
      getChild (setChild cs d n) c = getChild cs c := by
  intro cs n
  induction cs with
  | nil => simp [setChild, getChild, h]
  | cons hd rest ih =>
    obtain ⟨d', m'⟩ := hd
    by_cases hd' : d = d'
    · subst hd'
      simp [setChild, getChild, h]
    · simp [setChild, getChild, hd']
      by_cases hc' : c = d' <;> simp [hc', ih]

theorem search_cons_some {cs : List (Char × Node)} {c : Char} {n : Node}
    (h : getChild cs c = some n) (e : Bool) (w : List Char) :
    search (c :: w) (.mk e cs) = search w n := by
  simp [search, findNode, h]

theorem search_cons_none {cs : List (Char × Node)} {c : Char}
    (h : getChild cs c = none) (e : Bool) (w : List Char) :
    search (c :: w) (.mk e cs) = false := by
  simp [search, findNode, h]

theorem search_emptyNode : ∀ w : List Char, search w emptyNode = false
  | [] => rfl
  | _ :: _ => rfl

theorem startsWith_cons_some {cs : List (Char × Node)} {c : Char} {n : Node}
    (h : getChild cs c = some n) (e : Bool) (w : List Char) :
    startsWith (c :: w) (.mk e cs) = startsWith w n := by
  simp [startsWith, findNode, h]

theorem startsWith_cons_none {cs : List (Char × Node)} {c : Char}
    (h : getChild cs c = none) (e : Bool) (w : List Char) :
    startsWith (c :: w) (.mk e cs) = false := by
  simp [startsWith, findNode, h]

theorem startsWith_emptyNode :
    ∀ w : List Char, startsWith w emptyNode = true ↔ w = []
  | [] => by simp [startsWith, findNode]
  | c :: w => by simp [startsWith, findNode, emptyNode, getChild]

theorem search_insert :
    ∀ (v w : List Char) (t : Node),
      search w (insert v t) = true ↔ w = v ∨ search w t = true := by
  intro v
  induction v with
  | nil =>
    intro w t
    obtain ⟨e, cs⟩ := t
    cases w with
    | nil => simp [insert, search, findNode, Node.isEnd]
    | cons c w' =>
      cases hg : getChild cs c with
      | none => simp [insert, search_cons_none hg]
      | some n => simp [insert, search_cons_some hg]
  | cons d v' ih =>
    intro w t
    obtain ⟨e, cs⟩ := t
    cases w with
    | nil => simp [insert, search, findNode, Node.isEnd]
    | cons c w' =>
      by_cases hc : c = d
      · subst hc
        rw [show insert (c :: v') (Node.mk e cs) =
              Node.mk e (setChild cs c
                (insert v' ((getChild cs c).getD emptyNode))) from rfl,
            search_cons_some (getChild_setChild_self cs c _)]
        cases hg : getChild cs c with
        | none =>
          simp only [hg, Option.getD_none]
          rw [search_cons_none hg]
          simp [ih, search_emptyNode]
        | some m =>
          simp only [hg, Option.getD_some]
          rw [search_cons_some hg]
          simp [ih]
      · rw [show insert (d :: v') (Node.mk e cs) =
              Node.mk e (setChild cs d
                (insert v' ((getChild cs d).getD emptyNode))) from rfl]
        have hcc : c ≠ d := hc
        cases hg : getChild cs c with
        | none =>
          rw [search_cons_none (by rw [getChild_setChild_ne hcc]; exact hg),
              search_cons_none hg]
          simp [hc]
        | some m =>
          rw [search_cons_some (by rw [getChild_setChild_ne hcc]; exact hg),
              search_cons_some hg]
          simp [hc]

theorem startsWith_insert :
    ∀ (v q : List Char) (t : Node),
      startsWith q (insert v t) = true ↔ q <+: v ∨ startsWith q t = true := by
  intro v
  induction v with
  | nil =>
    intro q t
    obtain ⟨e, cs⟩ := t
    cases q with
    | nil => simp [insert, startsWith, findNode]
    | cons c q' =>
      cases hg : getChild cs c with
      | none => simp [insert, startsWith_cons_none hg]
      | some n => simp [insert, startsWith_cons_some hg]
  | cons d v' ih =>
    intro q t
    obtain ⟨e, cs⟩ := t
    cases q with
    | nil => simp [insert, startsWith, findNode]
    | cons c q' =>
      by_cases hc : c = d
      · subst hc
        rw [show insert (c :: v') (Node.mk e cs) =
              Node.mk e (setChild cs c
                (insert v' ((getChild cs c).getD emptyNode))) from rfl,
            startsWith_cons_some (getChild_setChild_self cs c _)]
        cases hg : getChild cs c with
        | none =>
          simp only [hg, Option.getD_none]
          rw [startsWith_cons_none hg, ih]
          simp only [List.cons_prefix_cons, true_and, Bool.false_eq_true,
            or_false]
          constructor
          · rintro (h | h)
            · exact h
            · rw [(startsWith_emptyNode q').mp h]
              exact List.nil_prefix
          · exact Or.inl
        | some m =>
          simp only [hg, Option.getD_some]
          rw [startsWith_cons_some hg]
          simp [ih, List.cons_prefix_cons]
      · rw [show insert (d :: v') (Node.mk e cs) =
              Node.mk e (setChild cs d
                (insert v' ((getChild cs d).getD emptyNode))) from rfl]
        have hcc : c ≠ d := hc
        cases hg : getChild cs c with
        | none =>
          rw [startsWith_cons_none (by rw [getChild_setChild_ne hcc]; exact hg),
              startsWith_cons_none hg]
          simp [List.cons_prefix_cons, hc]
        | some m =>
          rw [startsWith_cons_some (by rw [getChild_setChild_ne hcc]; exact hg),
              startsWith_cons_some hg]
          simp [List.cons_prefix_cons, hc]

/-! ### Well-formedness: unique child keys at every node (Python dicts
have unique keys, so every trie state the code can build satisfies it) -/

/-- A node is well formed when its children keys are pairwise distinct
and all children are well formed. -/
inductive WF : Node → Prop
  | mk (e : Bool) (cs : List (Char × Node))
      (hkeys : (cs.map Prod.fst).Nodup)
      (hch : ∀ p ∈ cs, WF p.2) : WF (.mk e cs)

theorem WF_emptyNode : WF emptyNode :=
  WF.mk false [] (by simp) (by simp)

theorem mem_keys_setChild {x : Char} :
    ∀ (cs : List (Char × Node)) (c : Char) (n : Node),
      x ∈ (setChild cs c n).map Prod.fst → x = c ∨ x ∈ cs.map Prod.fst := by
  intro cs c n
  induction cs with
  | nil => simp [setChild]
  | cons hd rest ih =>
    obtain ⟨d, m⟩ := hd
    by_cases hc : c = d
    · subst hc
      simp [setChild]
    · simp only [setChild, if_neg hc, List.map_cons, List.mem_cons]
      rintro (h | h)
      · exact Or.inr (Or.inl h)
      · rcases ih h with h' | h'
        · exact Or.inl h'
        · exact Or.inr (Or.inr h')

theorem nodup_keys_setChild :
    ∀ (cs : List (Char × Node)) (c : Char) (n : Node),
      (cs.map Prod.fst).Nodup → ((setChild cs c n).map Prod.fst).Nodup := by
  intro cs c n
  induction cs with
  | nil => simp [setChild]
  | cons hd rest ih =>
    obtain ⟨d, m⟩ := hd
    intro h
    rw [List.map_cons, List.nodup_cons] at h
    by_cases hc : c = d
    · subst hc
      simpa [setChild, List.nodup_cons] using h
    · rw [setChild, if_neg hc, List.map_cons, List.nodup_cons]
      refine ⟨fun hmem => ?_, ih h.2⟩
      rcases mem_keys_setChild rest c n hmem with h' | h'
      · exact hc (h'.symm ▸ rfl)
      · exact h.1 h'

theorem mem_setChild {x : Char × Node} :
    ∀ (cs : List (Char × Node)) (c : Char) (n : Node),
      x ∈ setChild cs c n → x = (c, n) ∨ x ∈ cs := by
  intro cs c n
  induction cs with
  | nil => simp [setChild]
  | cons hd rest ih =>
    obtain ⟨d, m⟩ := hd
    by_cases hc : c = d
    · subst hc
      simp only [setChild, if_pos rfl, ite_true, List.mem_cons]
      rintro (h | h)
      · exact Or.inl h
      · exact Or.inr (Or.inr h)
    · simp only [setChild, if_neg hc, List.mem_cons]
      rintro (h | h)
      · exact Or.inr (Or.inl h)
      · rcases ih h with h' | h'
        · exact Or.inl h'
        · exact Or.inr (Or.inr h')

theorem getChild_mem {c : Char} {m : Node} :
    ∀ cs : List (Char × Node), getChild cs c = some m → (c, m) ∈ cs := by
  intro cs
  induction cs with
  | nil => simp [getChild]
  | cons hd rest ih =>
    obtain ⟨d, n⟩ := hd
    by_cases hc : c = d
    · subst hc
      simp only [getChild, if_pos rfl, ite_true, Option.some.injEq]
      rintro rfl
      exact List.mem_cons_self _ _
    · simp only [getChild, if_neg hc]
      intro h
      exact List.mem_cons_of_mem _ (ih h)

theorem WF_children {e : Bool} {cs : List (Char × Node)} (h : WF (.mk e cs)) :
    ∀ p ∈ cs, WF p.2 := by
  cases h with
  | mk e cs hkeys hch => exact hch

theorem WF_keys {e : Bool} {cs : List (Char × Node)} (h : WF (.mk e cs)) :
    (cs.map Prod.fst).Nodup := by
  cases h with
  | mk e cs hkeys hch => exact hkeys

theorem WF_getD_child {e : Bool} {cs : List (Char × Node)}
    (h : WF (.mk e cs)) (c : Char) :
    WF ((getChild cs c).getD emptyNode) := by
  cases hg : getChild cs c with
  | none => exact WF_emptyNode
  | some m => exact WF_children h _ (getChild_mem cs hg)

theorem WF_insert : ∀ (v : List Char) (t : Node), WF t → WF (insert v t) := by
  intro v
  induction v with
  | nil =>
    intro t h
    obtain ⟨e, cs⟩ := t
    exact WF.mk true cs (WF_keys h) (WF_children h)
  | cons c v' ih =>
    intro t h
    obtain ⟨e, cs⟩ := t
    refine WF.mk e _ (nodup_keys_setChild cs c _ (WF_keys h)) ?_
    intro p hp
    rcases mem_setChild cs c _ hp with h' | h'
    · rw [h']
      exact ih _ (WF_getD_child h c)
    · exact WF_children h _ h'

theorem WF_findNode :
    ∀ (q : List Char) (t n : Node), WF t → findNode q t = some n → WF n := by
  intro q
  induction q with
  | nil =>
    intro t n h hf
    cases hf
    exact h
  | cons c q' ih =>
    intro t n h hf
    obtain ⟨e, cs⟩ := t
    rw [findNode] at hf
    cases hg : getChild cs c with
    | none => rw [hg] at hf; cases hf
    | some m =>
      rw [hg] at hf
      exact ih m n (WF_children h _ (getChild_mem cs hg)) hf

theorem WF_buildTrie (ws : List (List Char)) : WF (buildTrie ws) := by
  have aux : ∀ (l : List (List Char)) (t : Node), WF t →
      WF (l.foldl (fun t w => insert w t) t) := by
    intro l
    induction l with
    | nil => intro t h; exact h
    | cons w rest ih =>
      intro t h
      exact ih _ (WF_insert w t h)
  exact aux ws emptyNode WF_emptyNode

/-! ### Build-level characterizations -/

theorem search_foldl :
    ∀ (ws : List (List Char)) (t : Node) (w : List Char),
      search w (ws.foldl (fun t w => insert w t) t) = true ↔
        w ∈ ws ∨ search w t = true := by
  intro ws
  induction ws with
  | nil => simp
  | cons w₀ rest ih =>
    intro t w
    rw [List.foldl_cons, ih, search_insert]
    simp only [List.mem_cons]
    tauto

theorem search_buildTrie (ws : List (List Char)) (w : List Char) :
    search w (buildTrie ws) = true ↔ w ∈ ws := by
  rw [buildTrie, search_foldl, search_emptyNode]
  simp

theorem startsWith_foldl :
    ∀ (ws : List (List Char)) (t : Node) (q : List Char),
      startsWith q (ws.foldl (fun t w => insert w t) t) = true ↔
        (∃ u ∈ ws, q <+: u) ∨ startsWith q t = true := by
  intro ws
  induction ws with
  | nil => simp
  | cons w₀ rest ih =>
    intro t q
    rw [List.foldl_cons, ih, startsWith_insert]
    simp only [List.mem_cons]
    constructor
    · rintro (⟨u, hu, hq⟩ | (h | h))
      · exact Or.inl ⟨u, Or.inr hu, hq⟩
      · exact Or.inl ⟨w₀, Or.inl rfl, h⟩
      · exact Or.inr h
    · rintro (⟨u, rfl | hu, hq⟩ | h)
      · exact Or.inr (Or.inl hq)
      · exact Or.inl ⟨u, hu, hq⟩
      · exact Or.inr (Or.inr h)

theorem startsWith_buildTrie (ws : List (List Char)) (q : List Char) :
    startsWith q (buildTrie ws) = true ↔ q = [] ∨ ∃ u ∈ ws, q <+: u := by
  rw [buildTrie, startsWith_foldl]
  rw [startsWith_emptyNode]
  exact or_comm

/-! ### Idempotence of insert -/

theorem setChild_setChild (cs : List (Char × Node)) (c : Char) (a b : Node) :
    setChild (setChild cs c a) c b = setChild cs c b := by
  induction cs with
  | nil => simp [setChild]
  | cons hd rest ih =>
    obtain ⟨d, m⟩ := hd
    by_cases hc : c = d
    · subst hc
      simp [setChild]
    · simp [setChild, hc, ih]

theorem insert_insert :
    ∀ (w : List Char) (t : Node), insert w (insert w t) = insert w t := by
  intro w
  induction w with
  | nil =>
    intro t
    obtain ⟨e, cs⟩ := t
    rfl
  | cons c w' ih =>
    intro t
    obtain ⟨e, cs⟩ := t
    rw [show insert (c :: w') (Node.mk e cs) =
          Node.mk e (setChild cs c
            (insert w' ((getChild cs c).getD emptyNode))) from rfl]
    rw [show insert (c :: w')
          (Node.mk e (setChild cs c
            (insert w' ((getChild cs c).getD emptyNode)))) =
          Node.mk e (setChild (setChild cs c
              (insert w' ((getChild cs c).getD emptyNode))) c
            (insert w' (((getChild (setChild cs c
              (insert w' ((getChild cs c).getD emptyNode))) c)).getD
                emptyNode))) from rfl]
    rw [getChild_setChild_self, Option.getD_some, ih, setChild_setChild]

/-! ### Characterization of the enumeration -/

theorem search_nil_node (e : Bool) (cs : List (Char × Node)) :
    search [] (.mk e cs) = e := rfl

theorem search_cons_iff (e : Bool) (cs : List (Char × Node)) (c : Char)
    (s : List Char) :
    search (c :: s) (.mk e cs) = true ↔
      ∃ n, getChild cs c = some n ∧ search s n = true := by
  cases hg : getChild cs c with
  | none => simp [search_cons_none hg]
  | some n => simp [search_cons_some hg, hg]

theorem getChild_mem_keys {c : Char} {m : Node} {cs : List (Char × Node)}
    (h : getChild cs c = some m) : c ∈ cs.map Prod.fst :=
  List.mem_map.mpr ⟨(c, m), getChild_mem cs h, rfl⟩

theorem mem_iterList_aux :
    ∀ (cs : List (Char × Node)) (q w : List Char),
      (cs.map Prod.fst).Nodup →
      (∀ p ∈ cs, ∀ (w q : List Char),
        w ∈ iterateWords p.2 q ↔ ∃ s, w = q ++ s ∧ search s p.2 = true) →
      (w ∈ iterList cs q ↔
        ∃ c n s, getChild cs c = some n ∧ w = q ++ c :: s ∧
          search s n = true) := by
  intro cs
  induction cs with
  | nil => simp [iterList, getChild]
  | cons hd rest ih =>
    obtain ⟨c₀, n₀⟩ := hd
    intro q w hkeys hmem
    rw [List.map_cons, List.nodup_cons] at hkeys
    rw [iterList, List.mem_append]
    rw [hmem (c₀, n₀) (List.mem_cons_self _ _) w (q ++ [c₀])]
    rw [ih q w hkeys.2 (fun p hp => hmem p (List.mem_cons_of_mem _ hp))]
    constructor
    · rintro (⟨s, rfl, hs⟩ | ⟨c, n, s, hg, rfl, hs⟩)
      · refine ⟨c₀, n₀, s, ?_, by simp, hs⟩
        simp [getChild]
      · have hcne : c ≠ c₀ := by
          intro h
          exact hkeys.1 (h ▸ getChild_mem_keys hg)
        exact ⟨c, n, s, by simp [getChild, hcne, hg], rfl, hs⟩
    · rintro ⟨c, n, s, hg, rfl, hs⟩
      by_cases hc : c = c₀
      · subst hc
        rw [getChild, if_pos rfl] at hg
        cases hg
        exact Or.inl ⟨s, by simp, hs⟩
      · rw [getChild, if_neg hc] at hg
        exact Or.inr ⟨c, n, s, hg, rfl, hs⟩

theorem mem_iterateWords {t : Node} (h : WF t) :
    ∀ (w q : List Char),
      w ∈ iterateWords t q ↔ ∃ s, w = q ++ s ∧ search s t = true := by
  induction h with
  | mk e cs hkeys hch ih =>
    intro w q
    rw [iterateWords, List.mem_append,
      mem_iterList_aux cs q w hkeys (fun p hp => ih p hp)]
    constructor
    · rintro (h1 | ⟨c, n, s, hg, rfl, hs⟩)
      · refine ⟨[], ?_, ?_⟩
        · cases e with
          | false => simp at h1
          | true =>
            rw [if_pos rfl] at h1
            rw [List.mem_singleton.mp h1, List.append_nil]
        · cases e with
          | false => simp at h1
          | true => rfl
      · exact ⟨c :: s, rfl, (search_cons_iff e cs c s).mpr ⟨n, hg, hs⟩⟩
    · rintro ⟨s, rfl, hs⟩
      cases s with
      | nil =>
        rw [search_nil_node] at hs
        subst hs
        simp
      | cons c s' =>
        rcases (search_cons_iff e cs c s').mp hs with ⟨n, hg, hs'⟩
        exact Or.inr ⟨c, n, s', hg, rfl, hs'⟩

theorem mem_iterateWords_shape {t : Node} (h : WF t) {w q : List Char}
    (hw : w ∈ iterateWords t q) : ∃ s, w = q ++ s := by
  rcases (mem_iterateWords h w q).mp hw with ⟨s, rfl, _⟩
  exact ⟨s, rfl⟩

theorem mem_iterateAll {t : Node} (h : WF t) (w : List Char) :
    w ∈ iterateAll t ↔ search w t = true := by
  rw [iterateAll, mem_iterateWords h w []]
  simp

theorem mem_iterateAll_buildTrie (ws : List (List Char)) (w : List Char) :
    w ∈ iterateAll (buildTrie ws) ↔ w ∈ ws := by
  rw [mem_iterateAll (WF_buildTrie ws), search_buildTrie]

theorem ne_of_append_head_ne {q : List Char} {c d : Char} {s u : List Char}
    (h : c ≠ d) : q ++ c :: s ≠ q ++ d :: u := by
  intro he
  exact h (by
    have := List.append_cancel_left he
    exact (List.cons.injEq c s d u ▸ this).1)

theorem nodup_iterList_aux :
    ∀ (cs : List (Char × Node)) (q : List Char),
      (cs.map Prod.fst).Nodup →
      (∀ p ∈ cs, WF p.2) →
      (∀ p ∈ cs, ∀ q', (iterateWords p.2 q').Nodup) →
      (iterList cs q).Nodup := by
  intro cs
  induction cs with
  | nil => simp [iterList]
  | cons hd rest ih =>
    obtain ⟨c₀, n₀⟩ := hd
    intro q hkeys hwf hnd
    rw [List.map_cons, List.nodup_cons] at hkeys
    rw [iterList]
    refine List.Nodup.append (hnd (c₀, n₀) (List.mem_cons_self _ _) _)
      (ih q hkeys.2 (fun p hp => hwf p (List.mem_cons_of_mem _ hp))
        (fun p hp => hnd p (List.mem_cons_of_mem _ hp))) ?_
    intro w hw1 hw2
    rcases mem_iterateWords_shape (hwf (c₀, n₀) (List.mem_cons_self _ _)) hw1
      with ⟨s, rfl⟩
    rcases (mem_iterList_aux rest q _ hkeys.2
        (fun p hp => mem_iterateWords
          (hwf p (List.mem_cons_of_mem _ hp)))).mp hw2
      with ⟨c, n, s', hg, heq, _⟩
    have hcne : c₀ ≠ c := by
      intro h
      exact hkeys.1 (h ▸ getChild_mem_keys hg)
    rw [List.append_assoc, List.singleton_append] at heq
    exact ne_of_append_head_ne hcne heq

theorem nodup_iterateWords {t : Node} (h : WF t) :
    ∀ q, (iterateWords t q).Nodup := by
  induction h with
  | mk e cs hkeys hch ih =>
    intro q
    rw [iterateWords]
    refine List.Nodup.append ?_
      (nodup_iterList_aux cs q hkeys hch (fun p hp => ih p hp)) ?_
    · cases e <;> simp
    · intro w hw1 hw2
      cases e with
      | false => simp at hw1
      | true =>
        rw [if_pos rfl] at hw1
        rcases (mem_iterList_aux cs q w hkeys
            (fun p hp => mem_iterateWords (hch p hp))).mp hw2
          with ⟨c, n, s, _, heq, _⟩
        rw [List.mem_singleton.mp hw1] at heq
        have := congrArg List.length heq
        simp at this

theorem countList_aux :
    ∀ (cs : List (Char × Node)) (q : List Char),
      (∀ p ∈ cs, ∀ q', countWords p.2 = (iterateWords p.2 q').length) →
      countList cs = (iterList cs q).length := by
  intro cs
  induction cs with
  | nil => simp [countList, iterList]
  | cons hd rest ih =>
    obtain ⟨c₀, n₀⟩ := hd
    intro q hcnt
    rw [countList, iterList, List.length_append,
      hcnt (c₀, n₀) (List.mem_cons_self _ _) (q ++ [c₀]),
      ih q (fun p hp => hcnt p (List.mem_cons_of_mem _ hp))]

theorem countWords_eq_length {t : Node} (h : WF t) :
    ∀ q, countWords t = (iterateWords t q).length := by
  induction h with
  | mk e cs hkeys hch ih =>
    intro q
    rw [countWords, iterateWords, List.length_append,
      countList_aux cs q (fun p hp => ih p hp)]
    cases e <;> simp

/-! ### The prefix-filter decomposition of the enumeration -/

theorem not_longer_pfx_self (q : List Char) (c : Char) (s : List Char) :
    ¬ ((q ++ c :: s) <+: q) := by
  intro h
  have := h.length_le
  simp at this

theorem filter_iterList_step :
    ∀ (cs : List (Char × Node)) (q : List Char) (c : Char)
      (rest : List Char),
      (cs.map Prod.fst).Nodup →
      (∀ p ∈ cs, WF p.2) →
      (∀ p ∈ cs, ∀ q',
        (iterateWords p.2 q').filter
            (fun w => decide ((q' ++ rest) <+: w)) =
          (match findNode rest p.2 with
           | none => []
           | some n => iterateWords n (q' ++ rest))) →
      (iterList cs q).filter (fun w => decide ((q ++ c :: rest) <+: w)) =
        (match getChild cs c with
         | none => []
         | some n =>
           (match findNode rest n with
            | none => []
            | some m => iterateWords m (q ++ c :: rest))) := by
  intro cs
  induction cs with
  | nil => simp [iterList, getChild]
  | cons hd tl ih =>
    obtain ⟨c₀, n₀⟩ := hd
    intro q c rest hkeys hwf hIH
    rw [List.map_cons, List.nodup_cons] at hkeys
    rw [iterList, List.filter_append]
    by_cases hc : c = c₀
    · subst hc
      have h1 : (iterateWords n₀ (q ++ [c])).filter
          (fun w => decide ((q ++ c :: rest) <+: w)) =
          (match findNode rest n₀ with
           | none => []
           | some m => iterateWords m (q ++ c :: rest)) := by
        have := hIH (c, n₀) (List.mem_cons_self _ _) (q ++ [c])
        rw [List.append_assoc, List.singleton_append] at this
        exact this
      have h2 : (iterList tl q).filter
          (fun w => decide ((q ++ c :: rest) <+: w)) = [] := by
        rw [List.filter_eq_nil_iff]
        intro w hw
        rcases (mem_iterList_aux tl q w hkeys.2
            (fun p hp => mem_iterateWords
              (hwf p (List.mem_cons_of_mem _ hp)))).mp hw
          with ⟨d, n, s, hg, rfl, _⟩
        have hdne : d ≠ c := by
          intro h
          exact hkeys.1 (h ▸ getChild_mem_keys hg)
        simp only [decide_eq_true_eq]
        rintro ⟨u, hu⟩
        simp only [List.append_assoc, List.cons_append] at hu
        exact ne_of_append_head_ne (fun h => hdne h.symm) hu
      rw [h1, h2, List.append_nil, getChild, if_pos rfl]
    · have h1 : (iterateWords n₀ (q ++ [c₀])).filter
          (fun w => decide ((q ++ c :: rest) <+: w)) = [] := by
        rw [List.filter_eq_nil_iff]
        intro w hw
        rcases mem_iterateWords_shape
            (hwf (c₀, n₀) (List.mem_cons_self _ _)) hw with ⟨s, rfl⟩
        simp only [decide_eq_true_eq]
        rintro ⟨u, hu⟩
        simp only [List.append_assoc, List.cons_append,
          List.singleton_append] at hu
        exact ne_of_append_head_ne hc hu
      rw [h1, List.nil_append, getChild, if_neg hc]
      exact ih q c rest hkeys.2
        (fun p hp => hwf p (List.mem_cons_of_mem _ hp))
        (fun p hp => hIH p (List.mem_cons_of_mem _ hp))

theorem filter_iterateWords :
    ∀ (pfx : List Char) (t : Node), WF t → ∀ q,
      (iterateWords t q).filter (fun w => decide ((q ++ pfx) <+: w)) =
        (match findNode pfx t with
         | none => []
         | some n => iterateWords n (q ++ pfx)) := by
  intro pfx
  induction pfx with
  | nil =>
    intro t h q
    rw [findNode, List.append_nil]
    rw [List.filter_eq_self]
    intro w hw
    rcases mem_iterateWords_shape h hw with ⟨s, rfl⟩
    simp
  | cons c rest ihp =>
    intro t h q
    obtain ⟨e, cs⟩ := t
    rw [iterateWords, List.filter_append]
    have h1 : ((if e = true then [q] else []) : List (List Char)).filter
        (fun w => decide ((q ++ c :: rest) <+: w)) = [] := by
      cases e with
      | false => simp
      | true => simp [not_longer_pfx_self q c rest]
    rw [h1, List.nil_append]
    have h2 := filter_iterList_step cs q c rest (WF_keys h) (WF_children h)
      (fun p hp q' => ihp p.2 (WF_children h p hp) q')
    rw [h2]
    cases hg : getChild cs c with
    | none => simp only [findNode, hg]
    | some n => simp only [findNode, hg]

/-! ### Derived facts -/

theorem countWords_buildTrie (ws : List (List Char)) :
    countWords (buildTrie ws) = ws.dedup.length := by
  have h1 : countWords (buildTrie ws) = (iterateAll (buildTrie ws)).length :=
    countWords_eq_length (WF_buildTrie ws) []
  have hperm : List.Perm (iterateAll (buildTrie ws)) ws.dedup :=
    (List.perm_ext_iff_of_nodup
        (nodup_iterateWords (WF_buildTrie ws) []) (List.nodup_dedup ws)).mpr
      (fun a => by rw [← iterateAll, mem_iterateAll_buildTrie, List.mem_dedup])
  rw [h1, hperm.length_eq]

theorem prefixIter_eq_filter (t : Node) (h : WF t) (pfx : List Char) :
    prefixIter pfx t =
      (iterateAll t).filter (fun w => decide (pfx <+: w)) := by
  have h0 := filter_iterateWords pfx t h []
  rw [List.nil_append] at h0
  rw [iterateAll, h0, prefixIter]

theorem startsWith_false_prefixIter {pfx : List Char} {t : Node}
    (h : startsWith pfx t = false) : prefixIter pfx t = [] := by
  rw [prefixIter]
  cases hf : findNode pfx t with
  | none => rfl
  | some n => rw [startsWith, hf] at h; simp at h

/-! ### The claims -/

/-- Claim C1 (code bug): the spec and the code's own docstrings promise
that iteration yields the stored words in strict ascending lexicographic
order (visiting children in ascending symbol order), with
`list(iterate_all())` equal to `["car","care","cat","dog"]` after
inserting `"cat"`, `"car"`, `"care"`, `"dog"` in that order; but
`_iterate_words` visits children in dict *insertion* order, so the code
actually yields `["cat","car","care","dog"]` on that input. -/
theorem c1_iterateAll_insertion_order :
    iterateAll (buildTrie
        [['c','a','t'], ['c','a','r'], ['c','a','r','e'], ['d','o','g']]) =
      [['c','a','t'], ['c','a','r'], ['c','a','r','e'], ['d','o','g']] ∧
    iterateAll (buildTrie
        [['c','a','t'], ['c','a','r'], ['c','a','r','e'], ['d','o','g']]) ≠
      [['c','a','r'], ['c','a','r','e'], ['c','a','t'], ['d','o','g']] := by
  exact ⟨rfl, by decide⟩

/-- Claim C2: after any finite sequence of inserts, `search(w)` is true
iff `w` is one of the inserted words; in particular it is true right
after inserting `w` and stays true after inserting `w` again. -/
theorem c2_search_iff_inserted (ws : List (List Char)) (w : List Char) :
    (search w (buildTrie ws) = true ↔ w ∈ ws) ∧
    search w (insert w (buildTrie ws)) = true ∧
    search w (insert w (insert w (buildTrie ws))) = true :=
  ⟨search_buildTrie ws w,
   (search_insert w w _).mpr (Or.inl rfl),
   (search_insert w w _).mpr (Or.inl rfl)⟩

/-- Claim C3: `count()` (exposed as `len`) equals the number of distinct
inserted words (duplicates counted once); it is `0` for a fresh trie and
`2` after inserting `"car"` then `"card"`. -/
theorem c3_count_distinct (ws : List (List Char)) :
    lenTrie (buildTrie ws) = ws.dedup.length ∧
    lenTrie (buildTrie []) = 0 ∧
    lenTrie (buildTrie [['c','a','r'], ['c','a','r','d']]) = 2 :=
  ⟨countWords_buildTrie ws, rfl, rfl⟩

/-- Claim C4: after any finite sequence of inserts, `contains_prefix(p)`
(alias `starts_with`) is true iff `p` is empty, or `p` is a stored word,
or `p` is a proper prefix of at least one stored word. -/
theorem c4_containsPrefix_iff (ws : List (List Char)) (q : List Char) :
    containsPrefix q (buildTrie ws) = true ↔
      q = [] ∨ q ∈ ws ∨ ∃ w ∈ ws, q <+: w ∧ q ≠ w := by
  rw [containsPrefix, startsWith_buildTrie]
  constructor
  · rintro (h0 | ⟨u, hu, hqu⟩)
    · exact Or.inl h0
    · by_cases hq : q = u
      · subst hq
        exact Or.inr (Or.inl hu)
      · exact Or.inr (Or.inr ⟨u, hu, hqu, hq⟩)
  · rintro (h0 | hq | ⟨u, hu, hqu, _⟩)
    · exact Or.inl h0
    · exact Or.inr ⟨q, hq, List.prefix_refl q⟩
    · exact Or.inr ⟨u, hu, hqu⟩

/-- Claim C5: after any finite sequence of inserts, the full iteration
is a finite list with no duplicates whose members are exactly the
distinct inserted words. -/
theorem c5_iterateAll_no_dup_set (ws : List (List Char)) :
    (iterateAll (buildTrie ws)).Nodup ∧
    (∀ w, w ∈ iterateAll (buildTrie ws) ↔ w ∈ ws) := by
  refine ⟨?_, fun w => mem_iterateAll_buildTrie ws w⟩
  exact nodup_iterateWords (WF_buildTrie ws) []

/-- Claim C6: after any finite sequence of inserts,
`iterate_with_prefix(p)` produces exactly the subsequence of
`iterate_all()` consisting of the words that start with `p` (hence the
empty sequence when no stored word starts with `p`, and it includes `p`
itself when `p` was inserted). -/
theorem c6_prefixIter_filter (ws : List (List Char)) (pfx : List Char) :
    prefixIter pfx (buildTrie ws) =
      (iterateAll (buildTrie ws)).filter (fun w => decide (pfx <+: w)) :=
  prefixIter_eq_filter _ (WF_buildTrie ws) pfx

/-- Claim C7: `insert` is idempotent: inserting the same word twice in
succession yields exactly the same tree state (nodes, edges, terminal
flags) and the same word count as inserting it once. -/
theorem c7_insert_idempotent (w : List Char) (t : Node) :
    insert w (insert w t) = insert w t ∧
    countWords (insert w (insert w t)) = countWords (insert w t) :=
  ⟨insert_insert w t, by rw [insert_insert]⟩

/-- Claim C8 (frame property of `insert`): for any trie state, inserting
`w` leaves `search(v)` unchanged for every `v ≠ w`, and leaves
`contains_prefix(q)` (= `starts_with(q)`) unchanged for every `q` that
is not a prefix of `w`. -/
theorem c8_insert_frame (t : Node) (w v q : List Char) (hv : v ≠ w)
    (hq : ¬ q <+: w) :
    search v (insert w t) = search v t ∧
    startsWith q (insert w t) = startsWith q t := by
  constructor
  · have h := search_insert w v t
    rw [or_iff_right hv] at h
    exact Bool.eq_iff_iff.mpr h
  · have h := startsWith_insert w q t
    rw [or_iff_right hq] at h
    exact Bool.eq_iff_iff.mpr h

/-- Witness for C8 at a concrete input: inserting `"a"` into the empty
trie changes neither `search("x")` nor `starts_with("y")`. -/
theorem c8_insert_frame_witness :
    search ['x'] (insert ['a'] emptyNode) = search ['x'] emptyNode ∧
    startsWith ['y'] (insert ['a'] emptyNode) = startsWith ['y'] emptyNode :=
  c8_insert_frame emptyNode ['a'] ['x'] ['y'] (by decide) (by decide)

/-- Claim C9: inserting the empty sequence into a fresh trie marks the
root terminal: `search("")` is true, `count()` is `1`, and the full
iteration yields exactly the empty word. -/
theorem c9_insert_empty_word :
    search [] (buildTrie [[]]) = true ∧
    lenTrie (buildTrie [[]]) = 1 ∧
    iterateAll (buildTrie [[]]) = [[]] :=
  ⟨rfl, rfl, rfl⟩

/-- Counterexample to C10 as stated: the fresh trie (reachable by the
empty sequence of insert calls) has a root node whose subtree contains
zero terminal nodes (`_count_words` counts exactly the terminal nodes of
a subtree), so "every node's subtree contains at least one terminal
node" fails there. -/
theorem c10_counterexample :
    findNode [] (buildTrie []) = some (buildTrie []) ∧
    ¬ 0 < countWords (buildTrie []) := ⟨rfl, by decide⟩

/-- Claim C10 as amended: once at least one word has been inserted,
every node of the trie has at least one terminal node in its subtree;
and for every non-empty `p`, `starts_with(p)` is true iff
`iterate_with_prefix(p)` yields at least one word. -/
theorem c10_amended_subtree_terminal (ws : List (List Char))
    (q pfx : List Char) (n : Node) (hws : ws ≠ [])
    (hfind : findNode q (buildTrie ws) = some n) (hpfx : pfx ≠ []) :
    0 < countWords n ∧
    (startsWith pfx (buildTrie ws) = true ↔
      prefixIter pfx (buildTrie ws) ≠ []) := by
  have hB := WF_buildTrie ws
  constructor
  · have hsw : startsWith q (buildTrie ws) = true := by
      rw [startsWith, hfind]
      rfl
    rcases (startsWith_buildTrie ws q).mp hsw with hq | ⟨u, hu, hqu⟩
    · subst hq
      rw [findNode] at hfind
      cases hfind
      rw [countWords_buildTrie]
      have hd : ws.dedup ≠ [] := by simpa [List.dedup_eq_nil] using hws
      exact List.length_pos.mpr hd
    · have hwn : WF n := WF_findNode q (buildTrie ws) n hB hfind
      have hcount : countWords n = (iterateWords n q).length :=
        countWords_eq_length hwn q
      have hfilt := filter_iterateWords q (buildTrie ws) hB []
      rw [List.nil_append, hfind] at hfilt
      have humem : u ∈ (iterateWords (buildTrie ws) []).filter
          (fun w => decide (q <+: w)) := by
        rw [List.mem_filter]
        exact ⟨(mem_iterateAll_buildTrie ws u).mpr hu, by simpa using hqu⟩
      rw [hfilt] at humem
      rw [hcount]
      exact List.length_pos.mpr (List.ne_nil_of_mem humem)
  · constructor
    · intro hsw
      rcases (startsWith_buildTrie ws pfx).mp hsw with h0 | ⟨u, hu, hqu⟩
      · exact absurd h0 hpfx
      · intro hemp
        rw [prefixIter_eq_filter _ hB pfx] at hemp
        have humem : u ∈ (iterateAll (buildTrie ws)).filter
            (fun w => decide (pfx <+: w)) :=
          List.mem_filter.mpr
            ⟨(mem_iterateAll_buildTrie ws u).mpr hu, by simpa using hqu⟩
        rw [hemp] at humem
        simp at humem
    · intro hne
      cases hb : startsWith pfx (buildTrie ws) with
      | true => rfl
      | false => exact absurd (startsWith_false_prefixIter hb) hne

/-- Witness for the amended C10 at a concrete input: in the trie holding
just `"a"`, the root (reached by the empty path) has a terminal node
below it, and `starts_with("a")` agrees with `prefix_iter("a")` being
non-empty. -/
theorem c10_amended_subtree_terminal_witness :
    0 < countWords (buildTrie [['a']]) ∧
    (startsWith ['a'] (buildTrie [['a']]) = true ↔
      prefixIter ['a'] (buildTrie [['a']]) ≠ []) :=
  c10_amended_subtree_terminal [['a']] [] ['a'] (buildTrie [['a']])
    (by decide) rfl (by decide)

end TrieSpec
